import Mathlib

/-!
# Fan-out hub of the auction backend

A shallow embedding of the websocket fan-out code of the repository:

* `Pisces/main.go`  : the channel-coordinated `Hub` (`Hub.Run`, `wsHandler`, the Kafka
  consumer loop of `main`);
* `pisces/main.go`  : the mutex-protected variant (`broadcastPrice`, `wsHandler`, the
  price generator of `main`);
* `go_port/main.go` : `parseSessionCookie`, `requireSession`, `handleAuctionWebsocket`;
* `tests/main.go`   : `handleAuctionWS`.

A `*websocket.Conn` is modelled by its identity (a natural number).  A Go
`map[*websocket.Conn]bool` whose values are always `true` is modelled by its key set, a
`Finset Conn`.  What the code does to the outside world (writes, closes, log lines) is
recorded as a list of `Effect`s, in program order.
-/

namespace Auction

/-- Identity of a `*websocket.Conn`. -/
abbrev Conn := Nat

/-- A `[]byte` payload. -/
abbrev Bytes := List Nat

/-- The observable actions of the hub code, in program order. -/
inductive Effect where
  /-- `conn.WriteMessage(websocket.TextMessage, msg)`; `ok` says that `err == nil`. -/
  | write (conn : Conn) (msg : Bytes) (ok : Bool)
  /-- `conn.Close()`. -/
  | close (conn : Conn)
  /-- `log.Println("Client connected. Total:", total)` of `Hub.Run`. -/
  | logConnected (total : Nat)
  /-- `log.Println("Client disconnected. Total:", total)` of `Hub.Run`. -/
  | logDisconnected (total : Nat)
  /-- `log.Println("WS write error, removing client:", err)` of `broadcastPrice`. -/
  | logWriteErrorRemoving (conn : Conn)
  /-- `log.Println("Client connected")` of the mutex variant of `wsHandler`. -/
  | logClientConnected
  /-- `log.Println("WS write error:", err)` of the mutex variant of `wsHandler`. -/
  | logWriteError (conn : Conn)
  deriving DecidableEq

/-- The three request channels of `Hub`: a value received on `h.register`,
`h.unregister` or `h.broadcast`. -/
inductive Request where
  | register (conn : Conn)
  | unregister (conn : Conn)
  | broadcast (msg : Bytes)
  deriving DecidableEq

/-- The request was received on `h.broadcast`. -/
def Request.isBroadcast : Request → Bool
  | Request.broadcast _ => true
  | _ => false

/-- What the code does not decide while one request is processed: which writes return an
error, and the order in which `range h.clients` visits the keys of the map (Go leaves it
unspecified; it is a permutation of the keys). -/
structure World where
  /-- `fails c` says that `c.WriteMessage` returns a non-nil error. -/
  fails : Conn → Bool
  /-- The order in which `range` yields the keys. -/
  order : List Conn

/-- The `Hub` of `Pisces/main.go`: the field `clients` (the channels are the `Request`s). -/
structure Hub where
  clients : Finset Conn
  deriving DecidableEq

/-- `NewHub`: an empty registry. -/
def NewHub : Hub := ⟨∅⟩

/-- The body of `for conn := range h.clients` in the broadcast case of `Hub.Run`, over
the keys in the order `range` yields them: write the payload; on error close the
connection and delete it from the map.  Only the current key is deleted during the
iteration, so every key of the map is visited once. -/
def Hub.rangeClients (msg : Bytes) (fails : Conn → Bool) :
    List Conn → Finset Conn → Finset Conn × List Effect
  | [], clients => (clients, [])
  | conn :: rest, clients =>
    if fails conn then
      let r := Hub.rangeClients msg fails rest (clients.erase conn)
      (r.1, Effect.write conn msg false :: Effect.close conn :: r.2)
    else
      let r := Hub.rangeClients msg fails rest clients
      (r.1, Effect.write conn msg true :: r.2)

/-- One iteration of the `for { select { ... } }` loop of `Hub.Run`, on the request
received: the new hub and the effects of the iteration. -/
def Hub.step (h : Hub) (w : World) : Request → Hub × List Effect
  | Request.register conn =>
    let clients := insert conn h.clients
    (⟨clients⟩, [Effect.logConnected clients.card])
  | Request.unregister conn =>
    if conn ∈ h.clients then
      let clients := h.clients.erase conn
      (⟨clients⟩, [Effect.close conn, Effect.logDisconnected clients.card])
    else
      (h, [])
  | Request.broadcast msg =>
    let r := Hub.rangeClients msg w.fails w.order h.clients
    (⟨r.1⟩, r.2)

/-- The order of a `World` is a possible order of `range h.clients`: every key once. -/
def World.RangeOf (w : World) (h : Hub) : Prop :=
  w.order.Nodup ∧ w.order.toFinset = h.clients

instance (w : World) (h : Hub) : Decidable (w.RangeOf h) := by
  unfold World.RangeOf; infer_instance

/-- The connections closed by a list of effects, with multiplicity, in order. -/
def closedConns : List Effect → List Conn
  | [] => []
  | Effect.close c :: es => c :: closedConns es
  | _ :: es => closedConns es

/-- The write attempts of a list of effects: connection, payload, success. -/
def writeAttempts : List Effect → List (Conn × Bytes × Bool)
  | [] => []
  | Effect.write c m ok :: es => (c, m, ok) :: writeAttempts es
  | _ :: es => writeAttempts es

/-- The successful deliveries of a list of effects: connection and payload. -/
def deliveries : List Effect → List (Conn × Bytes)
  | [] => []
  | Effect.write c m true :: es => (c, m) :: deliveries es
  | _ :: es => deliveries es

/-- The payloads of the write attempts made on connection `c`, in order. -/
def writesTo (c : Conn) : List Effect → List Bytes
  | [] => []
  | Effect.write c' m _ :: es => if c' = c then m :: writesTo c es else writesTo c es
  | _ :: es => writesTo c es

/-- The payloads successfully written to connection `c`, in order. -/
def deliveredTo (c : Conn) : List Effect → List Bytes
  | [] => []
  | Effect.write c' m true :: es =>
    if c' = c then m :: deliveredTo c es else deliveredTo c es
  | _ :: es => deliveredTo c es

/-- How many times `c.Close()` is called by a list of effects. -/
def closeCount (c : Conn) (es : List Effect) : Nat :=
  (closedConns es).count c

/-- The hub processing a finite sequence of requests one at a time, each in its own
`World`: the final hub and all effects, in order. -/
def Hub.run (h : Hub) : List (Request × World) → Hub × List Effect
  | [] => (h, [])
  | t :: rest =>
    let s := h.step t.2 t.1
    let r := Hub.run s.1 rest
    (r.1, s.2 ++ r.2)

/-- Every broadcast of the sequence ranges over the registry as it is when the request is
processed. -/
def Hub.RangesOk (h : Hub) : List (Request × World) → Prop
  | [] => True
  | t :: rest =>
    (match t.1 with
      | Request.broadcast _ => t.2.RangeOf h
      | _ => True) ∧ Hub.RangesOk (h.step t.2 t.1).1 rest

instance Hub.decRangesOk : (ts : List (Request × World)) → (h : Hub) →
    Decidable (Hub.RangesOk h ts)
  | [], _ => isTrue trivial
  | t :: rest, h =>
    have : Decidable (Hub.RangesOk (h.step t.2 t.1).1 rest) := Hub.decRangesOk rest _
    have : Decidable (match t.1 with
      | Request.broadcast _ => t.2.RangeOf h
      | _ => True) := by
      cases t.1 <;> simp only <;> infer_instance
    by unfold Hub.RangesOk; infer_instance

/-- The connections of the register requests of a sequence, in order. -/
def registrations : List (Request × World) → List Conn
  | [] => []
  | (Request.register c, _) :: rest => c :: registrations rest
  | _ :: rest => registrations rest

/-- The payloads of the broadcast requests of a sequence, in order. -/
def broadcastPayloads : List (Request × World) → List Bytes
  | [] => []
  | (Request.broadcast m, _) :: rest => m :: broadcastPayloads rest
  | _ :: rest => broadcastPayloads rest

/-- A world in which no write fails and `range` yields `order`. -/
def World.allOk (order : List Conn) : World := ⟨fun _ => false, order⟩

/-- A world in which exactly the writes on `bad` fail and `range` yields `order`. -/
def World.failing (bad : Conn) (order : List Conn) : World := ⟨fun c => c == bad, order⟩

/-- The payload of the scenario of the specification. -/
def scenarioPayload : Bytes :=
  "\x7b\"auctionID\":2,\"highestPrice\":450.00\x7d".toList.map Char.toNat

/-- The scenario of the specification up to its second broadcast: connection 1
registers, a broadcast, connection 2 registers, a second broadcast. -/
def scenarioStart : List (Request × World) :=
  [(Request.register 1, World.allOk []),
   (Request.broadcast scenarioPayload, World.allOk [1]),
   (Request.register 2, World.allOk []),
   (Request.broadcast scenarioPayload, World.allOk [2, 1])]

/-- The third broadcast of the scenario: the transport of connection 1 fails on write. -/
def scenarioThird : Request × World :=
  (Request.broadcast scenarioPayload, World.failing 1 [1, 2])

/-- The whole scenario, ending with the unregister request of connection 1. -/
def scenario : List (Request × World) :=
  scenarioStart ++ [scenarioThird, (Request.unregister 1, World.allOk [])]

/-! ## The mutex-protected variant (`pisces/main.go`) -/

/-- A finite non-negative `float64`, the value `mant * 2 ^ exp`.  `currentPrice` only
ever holds `0` and `float64(rand.Intn(100001))`, which are not negative. -/
structure Float64 where
  mant : Nat
  exp : Int
  deriving DecidableEq

/-- The conversion `float64(n)` of a non-negative Go `int`: exact below `2 ^ 53`,
otherwise rounded to 53 significant bits, ties to even. -/
def float64OfNat (n : Nat) : Float64 :=
  if n < 2 ^ 53 then ⟨n, 0⟩
  else
    let sh := Nat.log2 n - 52
    let q := n / 2 ^ sh
    let r := n % 2 ^ sh
    if 2 * r > 2 ^ sh ∨ (2 * r = 2 ^ sh ∧ q % 2 = 1) then ⟨q + 1, sh⟩ else ⟨q, sh⟩

/-- The value times one hundred, rounded to the nearest integer, ties to even: the
digits that the verb `%.2f` prints. -/
def Float64.hundredths (x : Float64) : Nat :=
  match x.exp with
  | Int.ofNat e => x.mant * 2 ^ e * 100
  | Int.negSucc e =>
    let d := 2 ^ (e + 1)
    let q := x.mant * 100 / d
    let r := x.mant * 100 % d
    if 2 * r > d ∨ (2 * r = d ∧ q % 2 = 1) then q + 1 else q

/-- The text of `fmt.Sprintf("%.2f", x)`: the integer part in decimal, a point, two
digits. -/
def formatFixed2 (x : Float64) : List Char :=
  Nat.toDigits 10 (x.hundredths / 100) ++
    ['.', Nat.digitChar (x.hundredths % 100 / 10), Nat.digitChar (x.hundredths % 10)]

/-- The text that `fmt.Sprintf` builds in `broadcastPrice` and in `wsHandler`: the literal
part of the format around `currentPrice` printed by the verb `%.2f`. -/
def priceMessage (currentPrice : Float64) : List Char :=
  "\x7b\"auctionID\":2,\"highestPrice\":".toList ++ formatFixed2 currentPrice ++
    "\x7d".toList

/-- The conversion `[]byte(msg)` of a Go string: its UTF-8 bytes. -/
def bytesOfText (t : List Char) : Bytes :=
  t.flatMap (fun ch => (String.utf8EncodeChar ch).map UInt8.toNat)

namespace Mutex

/-- The package-level variables `clients` and `currentPrice` of `pisces/main.go`. -/
structure State where
  clients : Finset Conn
  currentPrice : Float64
  deriving DecidableEq

/-- The variables when `main` starts its generator: no client, `currentPrice = 0`. -/
def State.init : State := ⟨∅, float64OfNat 0⟩

/-- The body of `for conn := range clients` in `broadcastPrice`: write the message; on
error log, close the connection and delete it from the map. -/
def rangeClients (msg : Bytes) (fails : Conn → Bool) :
    List Conn → Finset Conn → Finset Conn × List Effect
  | [], clients => (clients, [])
  | conn :: rest, clients =>
    if fails conn then
      let r := rangeClients msg fails rest (clients.erase conn)
      (r.1, Effect.write conn msg false :: Effect.logWriteErrorRemoving conn ::
        Effect.close conn :: r.2)
    else
      let r := rangeClients msg fails rest clients
      (r.1, Effect.write conn msg true :: r.2)

/-- The function `broadcastPrice`, run under `clientsMu`. -/
def broadcastPrice (s : State) (w : World) : State × List Effect :=
  let msg := bytesOfText (priceMessage s.currentPrice)
  let r := rangeClients msg w.fails w.order s.clients
  (⟨r.1, s.currentPrice⟩, r.2)

/-- The deferred function of `wsHandler`: delete the connection from the map, then
`conn.Close()`, both unconditionally. -/
def wsHandlerDeferred (s : State) (conn : Conn) : State × List Effect :=
  (⟨s.clients.erase conn, s.currentPrice⟩, [Effect.close conn])

/-- The function `wsHandler` from a successful upgrade to its read loop: register the
connection, log, send the current price; when that write fails the handler returns and
its deferred function runs. -/
def wsHandlerEnter (s : State) (w : World) (conn : Conn) : State × List Effect :=
  let s1 : State := ⟨insert conn s.clients, s.currentPrice⟩
  let msg := bytesOfText (priceMessage s.currentPrice)
  if w.fails conn then
    let d := wsHandlerDeferred s1 conn
    (d.1, Effect.logClientConnected :: Effect.write conn msg false ::
      Effect.logWriteError conn :: d.2)
  else
    (s1, [Effect.logClientConnected, Effect.write conn msg true])

/-- The read loop of `wsHandler` ends (`conn.ReadMessage` returned an error): the
handler returns and its deferred function runs. -/
def wsHandlerExit (s : State) (conn : Conn) : State × List Effect :=
  wsHandlerDeferred s conn

/-- One iteration of the generator loop of `main`, where `r` is the value of
`rand.Intn(100001)`: `currentPrice = float64(r)`, then `broadcastPrice()`. -/
def generatorTick (s : State) (w : World) (r : Nat) : State × List Effect :=
  broadcastPrice ⟨s.clients, float64OfNat r⟩ w

/-- What happens to the shared variables of the mutex variant. -/
inductive Event where
  /-- A handler upgraded `conn` and runs to its read loop. -/
  | upgraded (conn : Conn)
  /-- The read loop of the handler of `conn` ended. -/
  | readFailed (conn : Conn)
  /-- An iteration of the generator, `r` the value of `rand.Intn(100001)`. -/
  | generator (r : Nat)

/-- One event of the mutex variant. -/
def step (s : State) (w : World) : Event → State × List Effect
  | Event.upgraded conn => wsHandlerEnter s w conn
  | Event.readFailed conn => wsHandlerExit s conn
  | Event.generator r => generatorTick s w r

/-- A finite sequence of events of the mutex variant, from state `s`. -/
def run (s : State) : List (Event × World) → State × List Effect
  | [] => (s, [])
  | t :: rest =>
    let a := step s t.2 t.1
    let r := run a.1 rest
    (r.1, a.2 ++ r.2)

end Mutex

/-! ## The session gate (`go_port/main.go`, `tests/main.go`) -/

/-- The user of a session. -/
structure Session where
  UserID : Int
  deriving DecidableEq

/-- The package-level `sessions` map, from token to session, as an association list. -/
abbrev SessionStore := List (String × Session)

/-- What the handlers read of a request: the path and the value of the cookie named
`session` (`none` when `c.Request.Cookie("session")` returns an error). -/
structure HttpRequest where
  path : List Char
  sessionCookie : Option String

/-- What a websocket handler does with a request up to the upgrade: it answers with a
status and returns, or it calls `upgrader.Upgrade`. -/
inductive Outcome where
  | status (code : Nat)
  | upgradeAttempted
  deriving DecidableEq

/-- The function `parseSessionCookie` of `go_port/main.go`. -/
def parseSessionCookie (sessions : SessionStore) (req : HttpRequest) : Option Session :=
  match req.sessionCookie with
  | none => none
  | some value => if value = "" then none else sessions.lookup value

/-- The function `requireSession` of `go_port/main.go`: the session, or the status
`http.StatusUnauthorized` written to the response. -/
def requireSession (sessions : SessionStore) (req : HttpRequest) : Except Nat Session :=
  match parseSessionCookie sessions req with
  | none => Except.error 401
  | some s => Except.ok s

/-- The function `handleAuctionWebsocket` of `go_port/main.go`, up to the upgrade. -/
def handleAuctionWebsocket (sessions : SessionStore) (req : HttpRequest) : Outcome :=
  if ¬ "/auction/".toList.isPrefixOf req.path then Outcome.status 404
  else
    match requireSession sessions req with
    | Except.error code => Outcome.status code
    | Except.ok _ => Outcome.upgradeAttempted

/-- The function `handleAuctionWS` of `tests/main.go`, up to the upgrade: only the
presence of the cookie is tested, the `sessions` map is not consulted. -/
def handleAuctionWS (_sessions : SessionStore) (req : HttpRequest) : Outcome :=
  match req.sessionCookie with
  | none => Outcome.status 401
  | some _ => Outcome.upgradeAttempted

/-- The session check of `authMiddleware` of `tests/main.go`: the status it aborts
with, or the session it lets through. -/
def authMiddleware (sessions : SessionStore) (req : HttpRequest) : Except Nat Session :=
  match req.sessionCookie with
  | none => Except.error 401
  | some value =>
    match sessions.lookup value with
    | none => Except.error 401
    | some s => Except.ok s

/-- The request carries a valid session: a cookie whose value is a token of the store. -/
def HttpRequest.HasSession (req : HttpRequest) (sessions : SessionStore) : Prop :=
  ∃ value s, req.sessionCookie = some value ∧ sessions.lookup value = some s

/-! ## The Kafka consumer loop of `main` (`Pisces/main.go`) -/

/-- The code of a `kafka.Error`. -/
abbrev ErrorCode := Int

/-- The constant `kafka.ErrTimedOut` (`RD_KAFKA_RESP_ERR__TIMED_OUT`). -/
def ErrTimedOut : ErrorCode := -185

/-- A non-nil Go `error` as the loop sees it: a `kafka.Error` with its code, or a value
of any other dynamic type, for which the assertion `err.(kafka.Error)` fails. -/
inductive ReadError where
  | kafkaError (code : ErrorCode)
  | otherError (text : String)
  deriving DecidableEq

/-- The actions of the consumer loop. -/
inductive IngressEffect where
  /-- `log.Printf("Kafka received: %s\n", string(msg.Value))`. -/
  | logReceived (value : Bytes)
  /-- `hub.broadcast <- msg.Value`. -/
  | sendBroadcast (value : Bytes)
  /-- `log.Println("Kafka error:", err)`. -/
  | logKafkaError (err : ReadError)
  deriving DecidableEq

/-- The body of the consumer loop on the result of `consumer.ReadMessage(100)`: the value
of the message when `err == nil`, the error otherwise. -/
def consumerIteration : Except ReadError Bytes → List IngressEffect
  | Except.ok value => [IngressEffect.logReceived value, IngressEffect.sendBroadcast value]
  | Except.error (ReadError.kafkaError code) =>
    if code ≠ ErrTimedOut then [IngressEffect.logKafkaError (ReadError.kafkaError code)]
    else []
  | Except.error (ReadError.otherError _) => []

/-- The consumer loop over the results of its successive polls.  The body has no
`break`, `return` or panic, so every poll of the sequence is processed. -/
def consumerLoop : List (Except ReadError Bytes) → List IngressEffect
  | [] => []
  | r :: rest => consumerIteration r ++ consumerLoop rest

/-- The payloads that a list of ingress actions sends to the hub, in order. -/
def forwarded : List IngressEffect → List Bytes
  | [] => []
  | IngressEffect.sendBroadcast v :: es => v :: forwarded es
  | _ :: es => forwarded es

/-- The errors that a list of ingress actions logs, in order. -/
def loggedErrors : List IngressEffect → List ReadError
  | [] => []
  | IngressEffect.logKafkaError e :: es => e :: loggedErrors es
  | _ :: es => loggedErrors es

/-- The requests that the hub receives from a list of ingress actions. -/
def hubRequests : List IngressEffect → List Request
  | [] => []
  | IngressEffect.sendBroadcast v :: es => Request.broadcast v :: hubRequests es
  | _ :: es => hubRequests es

/-! ## Comparing the two hubs -/

/-- The set of connections a list of effects attempts a write on, each with the payload
of the write. -/
def writtenSet (es : List Effect) : Finset (Conn × Bytes) :=
  ((writeAttempts es).map (fun a => (a.1, a.2.1))).toFinset

/-- The set of connections a list of effects successfully writes to, each with the
payload. -/
def deliveredSet (es : List Effect) : Finset (Conn × Bytes) :=
  (deliveries es).toFinset

/-- The set of connections closed by a list of effects. -/
def closedSet (es : List Effect) : Finset Conn :=
  (closedConns es).toFinset

/-! ### The range loop of the broadcast case -/

theorem writeAttempts_rangeClients (msg : Bytes) (fails : Conn → Bool) (l : List Conn)
    (cl : Finset Conn) :
    writeAttempts (Hub.rangeClients msg fails l cl).2
      = l.map (fun c => (c, msg, !fails c)) := by
  induction l generalizing cl with
  | nil => rfl
  | cons c rest ih =>
    by_cases hc : fails c = true
    · simp [Hub.rangeClients, hc, writeAttempts, ih]
    · simp [Hub.rangeClients, hc, writeAttempts, ih]

theorem deliveries_rangeClients (msg : Bytes) (fails : Conn → Bool) (l : List Conn)
    (cl : Finset Conn) :
    deliveries (Hub.rangeClients msg fails l cl).2
      = (l.filter (fun c => !fails c)).map (fun c => (c, msg)) := by
  induction l generalizing cl with
  | nil => rfl
  | cons c rest ih =>
    by_cases hc : fails c = true
    · simp [Hub.rangeClients, hc, deliveries, ih]
    · simp [Hub.rangeClients, hc, deliveries, ih]

theorem closedConns_rangeClients (msg : Bytes) (fails : Conn → Bool) (l : List Conn)
    (cl : Finset Conn) :
    closedConns (Hub.rangeClients msg fails l cl).2 = l.filter fails := by
  induction l generalizing cl with
  | nil => rfl
  | cons c rest ih =>
    by_cases hc : fails c = true
    · simp [Hub.rangeClients, hc, closedConns, ih]
    · simp [Hub.rangeClients, hc, closedConns, ih]

theorem mem_rangeClients (msg : Bytes) (fails : Conn → Bool) (l : List Conn)
    (cl : Finset Conn) (x : Conn) :
    x ∈ (Hub.rangeClients msg fails l cl).1 ↔ x ∈ cl ∧ ¬ (x ∈ l ∧ fails x = true) := by
  induction l generalizing cl with
  | nil => simp [Hub.rangeClients]
  | cons c rest ih =>
    by_cases hc : fails c = true
    · simp only [Hub.rangeClients, hc, if_true, ih, Finset.mem_erase, List.mem_cons]
      constructor
      · rintro ⟨⟨hne, hx⟩, hn⟩
        refine ⟨hx, ?_⟩
        rintro ⟨h1 | h1, h2⟩
        · exact hne h1
        · exact hn ⟨h1, h2⟩
      · rintro ⟨hx, hn⟩
        refine ⟨⟨?_, hx⟩, fun h => hn ⟨Or.inr h.1, h.2⟩⟩
        intro h1
        exact hn ⟨Or.inl h1, h1 ▸ hc⟩
    · have hc' : fails c = false := by simpa using hc
      simp only [Hub.rangeClients, hc', Bool.false_eq_true, if_false, ih, List.mem_cons]
      constructor
      · rintro ⟨hx, hn⟩
        refine ⟨hx, ?_⟩
        rintro ⟨h1 | h1, h2⟩
        · exact hc (h1 ▸ h2)
        · exact hn ⟨h1, h2⟩
      · rintro ⟨hx, hn⟩
        exact ⟨hx, fun h => hn ⟨Or.inr h.1, h.2⟩⟩

theorem writesTo_rangeClients (msg : Bytes) (fails : Conn → Bool) (l : List Conn)
    (cl : Finset Conn) (x : Conn) :
    writesTo x (Hub.rangeClients msg fails l cl).2 = List.replicate (l.count x) msg := by
  induction l generalizing cl with
  | nil => rfl
  | cons c rest ih =>
    have hcount : c ≠ x → List.count x (c :: rest) = List.count x rest := by
      intro hne; simp [List.count_cons, hne]
    by_cases hc : fails c = true <;> by_cases hx : c = x
    · subst hx
      simp [Hub.rangeClients, hc, writesTo, ih, List.replicate_succ]
    · simp [Hub.rangeClients, hc, hx, writesTo, ih, hcount hx]
    · subst hx
      simp [Hub.rangeClients, hc, writesTo, ih, List.replicate_succ]
    · simp [Hub.rangeClients, hc, hx, writesTo, ih, hcount hx]

theorem deliveredTo_rangeClients (msg : Bytes) (fails : Conn → Bool) (l : List Conn)
    (cl : Finset Conn) (x : Conn) :
    deliveredTo x (Hub.rangeClients msg fails l cl).2
      = if fails x = true then [] else List.replicate (l.count x) msg := by
  induction l generalizing cl with
  | nil => simp [Hub.rangeClients, deliveredTo]
  | cons c rest ih =>
    have hcount : c ≠ x → List.count x (c :: rest) = List.count x rest := by
      intro hne; simp [List.count_cons, hne]
    by_cases hc : fails c = true <;> by_cases hx : c = x
    · subst hx
      simp [Hub.rangeClients, hc, deliveredTo, ih]
    · simp [Hub.rangeClients, hc, hx, deliveredTo, ih, hcount hx]
    · subst hx
      simp [Hub.rangeClients, hc, deliveredTo, ih, List.replicate_succ]
    · simp [Hub.rangeClients, hc, hx, deliveredTo, ih, hcount hx]

theorem count_of_range {l : List Conn} {s : Finset Conn} (hn : l.Nodup)
    (hs : l.toFinset = s) (x : Conn) : l.count x = if x ∈ s then 1 else 0 := by
  subst hs
  by_cases hx : x ∈ l
  · simp [hx, List.count_eq_one_of_mem hn hx]
  · simp [hx, List.count_eq_zero_of_not_mem hx]

theorem length_filter_range {l : List Conn} {s F : Finset Conn} (fails : Conn → Bool)
    (hn : l.Nodup) (hs : l.toFinset = s) (hF : ∀ c, c ∈ F ↔ c ∈ s ∧ fails c = true) :
    (l.filter fails).length = F.card := by
  have hF' : (l.filter fails).toFinset = F := by
    ext c
    simp [hF, ← hs]
  rw [← hF', List.toFinset_card_of_nodup (hn.filter _)]

/-! ### Runs of the hub -/

theorem run_append (h : Hub) (a b : List (Request × World)) :
    Hub.run h (a ++ b)
      = ((Hub.run (Hub.run h a).1 b).1, (Hub.run h a).2 ++ (Hub.run (Hub.run h a).1 b).2) := by
  induction a generalizing h with
  | nil => simp [Hub.run]
  | cons t rest ih => simp [Hub.run, ih, List.append_assoc]

theorem rangesOk_append (h : Hub) (a b : List (Request × World)) :
    Hub.RangesOk h (a ++ b) ↔ Hub.RangesOk h a ∧ Hub.RangesOk (Hub.run h a).1 b := by
  induction a generalizing h with
  | nil => simp [Hub.RangesOk, Hub.run]
  | cons t rest ih => simp [Hub.RangesOk, Hub.run, ih, and_assoc]

theorem registrations_append (a b : List (Request × World)) :
    registrations (a ++ b) = registrations a ++ registrations b := by
  induction a with
  | nil => rfl
  | cons t rest ih =>
    obtain ⟨req, w⟩ := t
    cases req <;> simp [registrations, ih]

theorem writesTo_append (c : Conn) (a b : List Effect) :
    writesTo c (a ++ b) = writesTo c a ++ writesTo c b := by
  induction a with
  | nil => rfl
  | cons e rest ih =>
    cases e <;> simp [writesTo, ih]
    split <;> simp

theorem deliveredTo_append (c : Conn) (a b : List Effect) :
    deliveredTo c (a ++ b) = deliveredTo c a ++ deliveredTo c b := by
  induction a with
  | nil => rfl
  | cons e rest ih =>
    cases e with
    | write c' m ok =>
      cases ok <;> simp [deliveredTo, ih]
      split <;> simp
    | _ => simp [deliveredTo, ih]

/-- A connection that is not registered and is not the one of a register request is not
registered after the step. -/
theorem not_mem_step (h : Hub) (w : World) (req : Request) (x : Conn)
    (hx : x ∉ h.clients) (hreq : req ≠ Request.register x) :
    x ∉ (h.step w req).1.clients := by
  cases req with
  | register c =>
    have hne : x ≠ c := fun e => hreq (by rw [e])
    simp [Hub.step, hx, hne]
  | unregister c =>
    by_cases hc : c ∈ h.clients
    · simp [Hub.step, hc, hx]
    · simp [Hub.step, hc, hx]
  | broadcast m =>
    simp only [Hub.step, mem_rangeClients]
    exact fun hh => hx hh.1

theorem not_mem_run (h : Hub) (ts : List (Request × World)) (x : Conn)
    (hx : x ∉ h.clients) (hreg : x ∉ registrations ts) :
    x ∉ (Hub.run h ts).1.clients := by
  induction ts generalizing h with
  | nil => simpa [Hub.run] using hx
  | cons t rest ih =>
    obtain ⟨req, w⟩ := t
    have hreq : req ≠ Request.register x := by
      intro e
      subst e
      simp [registrations] at hreg
    have hrest : x ∉ registrations rest := by
      intro hmem
      apply hreg
      cases req <;> simp [registrations, hmem]
    simpa [Hub.run] using ih _ (not_mem_step h w req x hx hreq) hrest

/-- No write is attempted on a connection that is not registered. -/
theorem writesTo_step_of_not_mem (h : Hub) (w : World) (req : Request) (x : Conn)
    (hx : x ∉ h.clients) (hw : req.isBroadcast = true → w.RangeOf h) :
    writesTo x (h.step w req).2 = [] := by
  cases req with
  | register c => simp [Hub.step, writesTo]
  | unregister c =>
    by_cases hc : c ∈ h.clients
    · simp [Hub.step, hc, writesTo]
    · simp [Hub.step, hc, writesTo]
  | broadcast m =>
    obtain ⟨hn, hs⟩ := hw rfl
    simp only [Hub.step, writesTo_rangeClients, count_of_range hn hs x, hx, if_false]
    rfl

theorem rangesOk_head (h : Hub) (t : Request × World) (rest : List (Request × World))
    (hok : Hub.RangesOk h (t :: rest)) : t.1.isBroadcast = true → t.2.RangeOf h := by
  obtain ⟨req, w⟩ := t
  intro hb
  cases req with
  | broadcast m => exact hok.1
  | register c => simp [Request.isBroadcast] at hb
  | unregister c => simp [Request.isBroadcast] at hb

/-- A registered connection that is never unregistered and whose writes succeed is
written every broadcast payload, in order, and stays registered. -/
theorem writes_of_registered (h : Hub) (ts : List (Request × World)) (c : Conn)
    (hc : c ∈ h.clients) (hok : h.RangesOk ts)
    (hkeep : ∀ t ∈ ts, t.1 ≠ Request.unregister c)
    (hsucc : ∀ t ∈ ts, t.1.isBroadcast = true → t.2.fails c = false) :
    writesTo c (Hub.run h ts).2 = broadcastPayloads ts ∧
    deliveredTo c (Hub.run h ts).2 = broadcastPayloads ts ∧
    c ∈ (Hub.run h ts).1.clients := by
  induction ts generalizing h with
  | nil => simp [Hub.run, writesTo, deliveredTo, broadcastPayloads, hc]
  | cons t rest ih =>
    obtain ⟨req, w⟩ := t
    have hkeep' : ∀ t ∈ rest, t.1 ≠ Request.unregister c :=
      fun t ht => hkeep t (List.mem_cons_of_mem _ ht)
    have hsucc' : ∀ t ∈ rest, t.1.isBroadcast = true → t.2.fails c = false :=
      fun t ht => hsucc t (List.mem_cons_of_mem _ ht)
    have hhead := rangesOk_head h (req, w) rest hok
    have hokr : Hub.RangesOk (h.step w req).1 rest := hok.2
    cases req with
    | register d =>
      have hc' : c ∈ (h.step w (Request.register d)).1.clients := by
        simp [Hub.step, hc]
      obtain ⟨h1, h2, h3⟩ := ih _ hc' hokr hkeep' hsucc'
      refine ⟨?_, ?_, ?_⟩
      · simp only [Hub.run, writesTo_append, h1, broadcastPayloads]
        simp [Hub.step, writesTo]
      · simp only [Hub.run, deliveredTo_append, h2, broadcastPayloads]
        simp [Hub.step, deliveredTo]
      · simpa [Hub.run] using h3
    | unregister d =>
      have hd : d ≠ c := by
        intro e
        exact hkeep (Request.unregister d, w) (List.mem_cons_self _ _) (by rw [e])
      have hc' : c ∈ (h.step w (Request.unregister d)).1.clients := by
        by_cases hdm : d ∈ h.clients
        · simp [Hub.step, hdm, hc, Ne.symm hd]
        · simp [Hub.step, hdm, hc]
      obtain ⟨h1, h2, h3⟩ := ih _ hc' hokr hkeep' hsucc'
      refine ⟨?_, ?_, ?_⟩
      · simp only [Hub.run, writesTo_append, h1, broadcastPayloads]
        by_cases hdm : d ∈ h.clients
        · simp [Hub.step, hdm, writesTo]
        · simp [Hub.step, hdm, writesTo]
      · simp only [Hub.run, deliveredTo_append, h2, broadcastPayloads]
        by_cases hdm : d ∈ h.clients
        · simp [Hub.step, hdm, deliveredTo]
        · simp [Hub.step, hdm, deliveredTo]
      · simpa [Hub.run] using h3
    | broadcast m =>
      obtain ⟨hn, hs⟩ := hhead rfl
      have hf : w.fails c = false := hsucc (Request.broadcast m, w) (List.mem_cons_self _ _) rfl
      have hc' : c ∈ (h.step w (Request.broadcast m)).1.clients := by
        simp only [Hub.step, mem_rangeClients]
        exact ⟨hc, fun hh => by simp [hf] at hh⟩
      obtain ⟨h1, h2, h3⟩ := ih _ hc' hokr hkeep' hsucc'
      refine ⟨?_, ?_, ?_⟩
      · simp only [Hub.run, writesTo_append, h1, broadcastPayloads]
        simp [Hub.step, writesTo_rangeClients, count_of_range hn hs c, hc]
      · simp only [Hub.run, deliveredTo_append, h2, broadcastPayloads]
        simp [Hub.step, deliveredTo_rangeClients, count_of_range hn hs c, hc, hf]
      · simpa [Hub.run] using h3

/-- No write is attempted on a connection that is neither registered at the start nor
registered by a request of the sequence. -/
theorem writesTo_run_of_not_mem (h : Hub) (ts : List (Request × World)) (x : Conn)
    (hx : x ∉ h.clients) (hreg : x ∉ registrations ts) (hok : h.RangesOk ts) :
    writesTo x (Hub.run h ts).2 = [] := by
  induction ts generalizing h with
  | nil => rfl
  | cons t rest ih =>
    obtain ⟨req, w⟩ := t
    have hreq : req ≠ Request.register x := by
      intro e
      subst e
      simp [registrations] at hreg
    have hrest : x ∉ registrations rest := by
      intro hmem
      apply hreg
      cases req <;> simp [registrations, hmem]
    have h1 := writesTo_step_of_not_mem h w req x hx (rangesOk_head h (req, w) rest hok)
    have h2 := ih _ (not_mem_step h w req x hx hreq) hrest hok.2
    simp only [Hub.run, writesTo_append, h1, h2, List.append_nil]

/-! ### C1 -/

/-- C1. Fan-out completeness under failure, broadcast case of `Hub.Run`: for a registry
`h.clients` of N distinct connections, a payload `msg` and the subset `F` of registered
connections whose write fails, one broadcast request attempts exactly one write, of
`msg`, on each registered connection and on no other; delivers `msg` once to each
connection outside `F`, N - |F| deliveries in all; closes each connection of `F` once
and no other; leaves exactly the connections outside `F` registered; and with an empty
registry has no effect at all. -/
theorem broadcast_fanout_complete (h : Hub) (w : World) (msg : Bytes) (F : Finset Conn)
    (hrange : w.RangeOf h) (hF : ∀ c, c ∈ F ↔ c ∈ h.clients ∧ w.fails c = true) :
    (∀ c, writesTo c (h.step w (Request.broadcast msg)).2
        = if c ∈ h.clients then [msg] else []) ∧
    (writeAttempts (h.step w (Request.broadcast msg)).2).length = h.clients.card ∧
    (∀ c, deliveredTo c (h.step w (Request.broadcast msg)).2
        = if c ∈ h.clients \ F then [msg] else []) ∧
    (deliveries (h.step w (Request.broadcast msg)).2).length
        = h.clients.card - F.card ∧
    (∀ c, closeCount c (h.step w (Request.broadcast msg)).2 = if c ∈ F then 1 else 0) ∧
    (closedConns (h.step w (Request.broadcast msg)).2).length = F.card ∧
    (h.step w (Request.broadcast msg)).1.clients = h.clients \ F ∧
    (h.step w (Request.broadcast msg)).1.clients.card = h.clients.card - F.card ∧
    (h.clients = ∅ → h.step w (Request.broadcast msg) = (h, [])) := by
  obtain ⟨hn, hs⟩ := hrange
  have hcard : w.order.length = h.clients.card := by
    rw [← hs, List.toFinset_card_of_nodup hn]
  have hFlen := length_filter_range w.fails hn hs hF
  have hsub : F ⊆ h.clients := fun c hc => ((hF c).1 hc).1
  have hreg : (h.step w (Request.broadcast msg)).1.clients = h.clients \ F := by
    ext x
    simp only [Hub.step, mem_rangeClients, Finset.mem_sdiff, hF]
    constructor
    · rintro ⟨hx, hnx⟩
      exact ⟨hx, fun hh => hnx ⟨by rw [← hs] at hh; simpa using hh.1, hh.2⟩⟩
    · rintro ⟨hx, hnx⟩
      exact ⟨hx, fun hh => hnx ⟨hx, hh.2⟩⟩
  refine ⟨?_, ?_, ?_, ?_, ?_, ?_, hreg, ?_, ?_⟩
  · intro c
    simp only [Hub.step, writesTo_rangeClients, count_of_range hn hs c]
    split <;> rfl
  · simp [Hub.step, writeAttempts_rangeClients, hcard]
  · intro c
    simp only [Hub.step, deliveredTo_rangeClients, count_of_range hn hs c,
      Finset.mem_sdiff, hF]
    by_cases hf : w.fails c = true <;> by_cases hc : c ∈ h.clients <;> simp [hf, hc]
  · simp only [Hub.step, deliveries_rangeClients, List.length_map]
    have := List.length_eq_length_filter_add (l := w.order) w.fails
    omega
  · intro c
    simp only [closeCount, Hub.step, closedConns_rangeClients]
    have hF' : (w.order.filter w.fails).toFinset = F := by
      ext c
      simp [hF, ← hs]
    exact count_of_range (hn.filter _) hF' c
  · simp only [Hub.step, closedConns_rangeClients, hFlen]
  · rw [hreg, Finset.card_sdiff hsub]
  · intro he
    have ho : w.order = [] := by
      rw [he] at hs
      simpa using hs
    simp only [Hub.step]
    rw [ho]
    rfl

/-- Witness of C1: three registered connections, the write on connection 2 fails. -/
theorem broadcast_fanout_complete_witness :
    (⟨fun c => c == 2, [3, 2, 1]⟩ : World).RangeOf ⟨{1, 2, 3}⟩ ∧
    (∀ c, writesTo c
        ((⟨{1, 2, 3}⟩ : Hub).step ⟨fun c => c == 2, [3, 2, 1]⟩ (Request.broadcast [7])).2
        = if c ∈ ({1, 2, 3} : Finset Conn) then [[7]] else []) ∧
    ((⟨{1, 2, 3}⟩ : Hub).step ⟨fun c => c == 2, [3, 2, 1]⟩
        (Request.broadcast [7])).1.clients = {1, 2, 3} \ {2} :=
  have hw := broadcast_fanout_complete ⟨{1, 2, 3}⟩ ⟨fun c => c == 2, [3, 2, 1]⟩ [7] {2}
    (by decide) (by
      intro c
      constructor
      · intro hc
        simp at hc
        subst hc
        decide
      · rintro ⟨_, h2⟩
        simpa using h2)
  ⟨by decide, hw.1, hw.2.2.2.2.2.2.1⟩

/-! ### C2 -/

/-- C2. Idempotent removal in `Hub.Run`: processing `unregister c` twice in a row gives
the same registry as processing it once (the registry without `c`); the second request
has no effect; over the two requests `c.Close()` is called exactly once when `c` was
registered beforehand and never otherwise, and no other connection is closed; when `c`
was not registered the first request changes nothing and has no effect either. -/
theorem unregister_idempotent (h : Hub) (w w' : World) (c : Conn) :
    ((h.step w (Request.unregister c)).1.step w' (Request.unregister c)).1
        = (h.step w (Request.unregister c)).1 ∧
    (h.step w (Request.unregister c)).1.clients = h.clients.erase c ∧
    ((h.step w (Request.unregister c)).1.step w' (Request.unregister c)).2 = [] ∧
    (∀ d, closeCount d ((h.step w (Request.unregister c)).2 ++
        ((h.step w (Request.unregister c)).1.step w' (Request.unregister c)).2)
        = if d = c ∧ c ∈ h.clients then 1 else 0) ∧
    (c ∉ h.clients → h.step w (Request.unregister c) = (h, [])) := by
  by_cases hc : c ∈ h.clients
  · refine ⟨?_, ?_, ?_, ?_, ?_⟩
    · simp [Hub.step, hc]
    · simp [Hub.step, hc]
    · simp [Hub.step, hc]
    · intro d
      by_cases hd : d = c
      · subst hd
        simp [Hub.step, hc, closeCount, closedConns]
      · have hd' : ¬ c = d := fun e => hd e.symm
        simp [Hub.step, hc, closeCount, closedConns, hd, hd']
    · exact fun hn => absurd hc hn
  · refine ⟨?_, ?_, ?_, ?_, ?_⟩
    · simp [Hub.step, hc]
    · simp [Hub.step, hc]
    · simp [Hub.step, hc]
    · intro d
      simp [Hub.step, hc, closeCount, closedConns]
    · intro _
      simp [Hub.step, hc]

/-! ### C3 -/

/-- C3. Registry exclusivity, no use after remove: in a sequence of requests processed
one at a time from the empty registry of `NewHub`, with each connection registered at
most once, if `c` is registered before the step `t` and no longer after it (removed by
an unregister request or by a failed write of a broadcast), then no later step `t'`
attempts a write on `c`. -/
theorem no_write_after_remove (pre mid post : List (Request × World))
    (t t' : Request × World) (c : Conn)
    (hok : NewHub.RangesOk (pre ++ t :: (mid ++ t' :: post)))
    (honce : (registrations (pre ++ t :: (mid ++ t' :: post))).Nodup)
    (hin : c ∈ (NewHub.run pre).1.clients)
    (hout : c ∉ ((NewHub.run pre).1.step t.2 t.1).1.clients) :
    writesTo c ((NewHub.run (pre ++ t :: mid)).1.step t'.2 t'.1).2 = [] := by
  have hpre : c ∈ registrations pre := by
    by_contra hn
    exact not_mem_run NewHub pre c (by simp [NewHub]) hn hin
  have hsplit : pre ++ t :: (mid ++ t' :: post) = pre ++ ((t :: mid) ++ t' :: post) := by
    simp
  rw [hsplit, registrations_append, registrations_append] at honce
  have hdisj := (List.nodup_append.1 honce).2.2
  have hmid : c ∉ registrations (t :: mid) := by
    intro hm
    exact hdisj hpre (List.mem_append_left _ hm)
  have hstate : c ∉ (NewHub.run (pre ++ t :: mid)).1.clients := by
    rw [run_append]
    simp only [Hub.run]
    apply not_mem_run _ mid c hout
    intro hm
    apply hmid
    obtain ⟨req, w⟩ := t
    cases req <;> simp [registrations, hm]
  have hok' : Hub.RangesOk (NewHub.run (pre ++ t :: mid)).1 (t' :: post) := by
    have h1 : pre ++ ((t :: mid) ++ t' :: post) = (pre ++ t :: mid) ++ (t' :: post) := by
      simp
    rw [hsplit, h1, rangesOk_append] at hok
    exact hok.2
  exact writesTo_step_of_not_mem _ _ _ c hstate (rangesOk_head _ _ _ hok')

/-- Witness of C3: in the scenario connection 1 is removed by the failed write of the
third broadcast; after its unregister request a fourth broadcast writes to connection 2
only. -/
theorem no_write_after_remove_witness :
    NewHub.RangesOk (scenarioStart ++ scenarioThird ::
      ([(Request.unregister 1, World.allOk [])] ++
        (Request.broadcast [7], World.allOk [2]) :: [])) ∧
    1 ∈ (NewHub.run scenarioStart).1.clients ∧
    1 ∉ ((NewHub.run scenarioStart).1.step scenarioThird.2 scenarioThird.1).1.clients ∧
    writesTo 1 ((NewHub.run (scenarioStart ++ scenarioThird ::
      [(Request.unregister 1, World.allOk [])])).1.step
        (World.allOk [2]) (Request.broadcast [7])).2 = [] ∧
    writesTo 2 ((NewHub.run (scenarioStart ++ scenarioThird ::
      [(Request.unregister 1, World.allOk [])])).1.step
        (World.allOk [2]) (Request.broadcast [7])).2 = [[7]] :=
  ⟨by decide, by decide, by decide,
    no_write_after_remove scenarioStart [(Request.unregister 1, World.allOk [])] []
      scenarioThird (Request.broadcast [7], World.allOk [2]) 1
      (by decide) (by decide) (by decide) (by decide),
    by decide⟩

/-! ### C4 -/

/-- C4. The two removal paths of the channel-coordinated hub are mutually idempotent:
when `c` is registered and its write fails during a broadcast, the broadcast removes `c`
and closes it once; an `unregister c` processed afterwards leaves the registry unchanged
and has no effect, so `c.Close()` is called exactly once over the two requests. -/
theorem failed_write_then_unregister (h : Hub) (w w' : World) (msg : Bytes) (c : Conn)
    (hrange : w.RangeOf h) (hc : c ∈ h.clients) (hf : w.fails c = true) :
    c ∉ (h.step w (Request.broadcast msg)).1.clients ∧
    closeCount c (h.step w (Request.broadcast msg)).2 = 1 ∧
    ((h.step w (Request.broadcast msg)).1.step w' (Request.unregister c)).1
        = (h.step w (Request.broadcast msg)).1 ∧
    ((h.step w (Request.broadcast msg)).1.step w' (Request.unregister c)).2 = [] ∧
    closeCount c ((h.step w (Request.broadcast msg)).2 ++
        ((h.step w (Request.broadcast msg)).1.step w' (Request.unregister c)).2) = 1 := by
  obtain ⟨hn, hs⟩ := hrange
  have hmem : c ∈ w.order := by
    rw [← hs] at hc
    simpa using hc
  have hout : c ∉ (h.step w (Request.broadcast msg)).1.clients := by
    simp only [Hub.step, mem_rangeClients]
    exact fun hh => hh.2 ⟨hmem, hf⟩
  have hclose : closeCount c (h.step w (Request.broadcast msg)).2 = 1 := by
    simp only [closeCount, Hub.step, closedConns_rangeClients]
    exact List.count_eq_one_of_mem (hn.filter _) (List.mem_filter.2 ⟨hmem, hf⟩)
  have hun : (h.step w (Request.broadcast msg)).1.step w' (Request.unregister c)
      = ((h.step w (Request.broadcast msg)).1, []) := by
    generalize h.step w (Request.broadcast msg) = b at hout
    simp [Hub.step, hout]
  refine ⟨hout, hclose, ?_, ?_, ?_⟩
  · rw [hun]
  · rw [hun]
  · rw [hun, List.append_nil, hclose]

/-- Witness of C4, the scenario of the specification: connection 1 registers and
receives the first broadcast, connection 2 registers and both receive the second, the
write on connection 1 fails in the third broadcast, which is delivered to connection 2
only and removes connection 1, and the closing `unregister 1` changes nothing. -/
theorem failed_write_then_unregister_witness :
    NewHub.RangesOk scenario ∧
    deliveries (NewHub.run scenarioStart).2
      = [(1, scenarioPayload), (2, scenarioPayload), (1, scenarioPayload)] ∧
    (NewHub.run scenarioStart).1.clients = {1, 2} ∧
    deliveries ((NewHub.run scenarioStart).1.step scenarioThird.2 scenarioThird.1).2
      = [(2, scenarioPayload)] ∧
    ((NewHub.run scenarioStart).1.step scenarioThird.2 scenarioThird.1).1.clients = {2} ∧
    (NewHub.run scenario).1.clients = {2} ∧
    closeCount 1 (NewHub.run scenario).2 = 1 ∧
    (1 ∉ ((NewHub.run scenarioStart).1.step (World.failing 1 [1, 2])
        (Request.broadcast scenarioPayload)).1.clients ∧
     closeCount 1 ((NewHub.run scenarioStart).1.step (World.failing 1 [1, 2])
        (Request.broadcast scenarioPayload)).2 = 1 ∧
     (((NewHub.run scenarioStart).1.step (World.failing 1 [1, 2])
        (Request.broadcast scenarioPayload)).1.step (World.allOk [])
        (Request.unregister 1)).1
      = ((NewHub.run scenarioStart).1.step (World.failing 1 [1, 2])
        (Request.broadcast scenarioPayload)).1 ∧
     (((NewHub.run scenarioStart).1.step (World.failing 1 [1, 2])
        (Request.broadcast scenarioPayload)).1.step (World.allOk [])
        (Request.unregister 1)).2 = [] ∧
     closeCount 1 (((NewHub.run scenarioStart).1.step (World.failing 1 [1, 2])
        (Request.broadcast scenarioPayload)).2 ++
      (((NewHub.run scenarioStart).1.step (World.failing 1 [1, 2])
        (Request.broadcast scenarioPayload)).1.step (World.allOk [])
        (Request.unregister 1)).2) = 1) :=
  ⟨by decide, by decide, by decide, by decide, by decide, by decide, by decide,
    failed_write_then_unregister (NewHub.run scenarioStart).1 (World.failing 1 [1, 2])
      (World.allOk []) scenarioPayload 1 (by decide) (by decide) (by decide)⟩

/-! ### C5 -/

theorem mutex_closedConns_range (msg : Bytes) (fails : Conn → Bool)
    (l : List Conn) (cl : Finset Conn) :
    closedConns (Mutex.rangeClients msg fails l cl).2 = l.filter fails := by
  induction l generalizing cl with
  | nil => rfl
  | cons c rest ih =>
    by_cases hc : fails c = true
    · simp [Mutex.rangeClients, hc, closedConns, ih]
    · simp [Mutex.rangeClients, hc, closedConns, ih]

/-- In the mutex variant every removal by a failed write is followed by a second
`conn.Close()`: the broadcast closes `c` once, and the deferred function of its handler
closes it again when the read loop ends. -/
theorem mutex_close_twice_after_failed_write (s : Mutex.State) (w : World) (c : Conn)
    (hrange : w.order.Nodup ∧ w.order.toFinset = s.clients) (hc : c ∈ s.clients)
    (hf : w.fails c = true) :
    closeCount c ((Mutex.broadcastPrice s w).2 ++
      (Mutex.wsHandlerExit (Mutex.broadcastPrice s w).1 c).2) = 2 := by
  obtain ⟨hn, hs⟩ := hrange
  have hmem : c ∈ w.order := by
    rw [← hs] at hc
    simpa using hc
  have h1 : (closedConns (Mutex.broadcastPrice s w).2).count c = 1 := by
    simp only [Mutex.broadcastPrice, mutex_closedConns_range]
    exact List.count_eq_one_of_mem (hn.filter _) (List.mem_filter.2 ⟨hmem, hf⟩)
  have happ : ∀ a b : List Effect, closedConns (a ++ b) = closedConns a ++ closedConns b := by
    intro a b
    induction a with
    | nil => rfl
    | cons e rest ih => cases e <;> simp [closedConns, ih]
  simp [closeCount, happ, h1, Mutex.wsHandlerExit, Mutex.wsHandlerDeferred, closedConns]

/-- C5. In the mutex variant the transport of a registered connection is not released
exactly once when the failed write comes first: connection 1 is registered by
`wsHandler`, its write fails in `broadcastPrice`, which closes it and deletes it, and
when its read loop then ends the deferred function of `wsHandler` calls `conn.Close()`
again, two calls in all; only the deletion from the map is a no-op the second time.
When the handler exits first, the connection is closed once. -/
theorem mutex_failed_write_closes_twice :
    (Mutex.run Mutex.State.init [(Mutex.Event.upgraded 1, World.allOk [])]).1.clients
      = {1} ∧
    closedConns (Mutex.run Mutex.State.init
      [(Mutex.Event.upgraded 1, World.allOk []),
       (Mutex.Event.generator 450, World.failing 1 [1])]).2 = [1] ∧
    (Mutex.run Mutex.State.init
      [(Mutex.Event.upgraded 1, World.allOk []),
       (Mutex.Event.generator 450, World.failing 1 [1])]).1.clients = ∅ ∧
    closedConns (Mutex.run Mutex.State.init
      [(Mutex.Event.upgraded 1, World.allOk []),
       (Mutex.Event.generator 450, World.failing 1 [1]),
       (Mutex.Event.readFailed 1, World.allOk [])]).2 = [1, 1] ∧
    closeCount 1 (Mutex.run Mutex.State.init
      [(Mutex.Event.upgraded 1, World.allOk []),
       (Mutex.Event.generator 450, World.failing 1 [1]),
       (Mutex.Event.readFailed 1, World.allOk [])]).2 = 2 ∧
    closeCount 1 (Mutex.run Mutex.State.init
      [(Mutex.Event.upgraded 1, World.allOk []),
       (Mutex.Event.readFailed 1, World.allOk []),
       (Mutex.Event.generator 450, World.failing 1 [])]).2 = 1 := by
  refine ⟨by decide, by decide, by decide, by decide, by decide, by decide⟩

/-! ### C6 -/

/-- The session gate of `handleAuctionWebsocket` (`go_port/main.go`), for a request
routed to it (its path starts with `/auction/`): without a valid session the answer is
401 and no upgrade is attempted; the upgrade is attempted only with a valid session. -/
theorem handleAuctionWebsocket_gate (sessions : SessionStore) (req : HttpRequest)
    (hpath : "/auction/".toList.isPrefixOf req.path = true) :
    (¬ req.HasSession sessions →
      handleAuctionWebsocket sessions req = Outcome.status 401) ∧
    (handleAuctionWebsocket sessions req = Outcome.upgradeAttempted →
      req.HasSession sessions) := by
  have key : handleAuctionWebsocket sessions req = Outcome.status 401 ∨
      (handleAuctionWebsocket sessions req = Outcome.upgradeAttempted ∧
        req.HasSession sessions) := by
    unfold handleAuctionWebsocket requireSession parseSessionCookie HttpRequest.HasSession
    simp only [hpath, not_true_eq_false, if_false]
    cases hck : req.sessionCookie with
    | none => simp
    | some value =>
      by_cases hv : value = ""
      · simp [hv]
      · cases hl : sessions.lookup value with
        | none => simp [hv, hl]
        | some s => simp [hv, hl]
  constructor
  · intro hno
    rcases key with h | ⟨_, h⟩
    · exact h
    · exact absurd h hno
  · intro hup
    rcases key with h | ⟨_, h⟩
    · rw [hup] at h
      cases h
    · exact h

/-- The handler `handleAuctionWS` rejects a request without the cookie. -/
theorem handleAuctionWS_missing_cookie (sessions : SessionStore) (path : List Char) :
    handleAuctionWS sessions ⟨path, none⟩ = Outcome.status 401 := rfl

/-- C6. The session gate fails in `handleAuctionWS` (`tests/main.go`): for the request
to `/auction/7` whose cookie `session=bogus` is no token of the (empty) session store,
an invalid session, the handler attempts the websocket upgrade instead of answering 401;
on the same request `handleAuctionWebsocket` of `go_port/main.go` and `authMiddleware`
of the same file answer 401. -/
theorem handleAuctionWS_upgrades_invalid_session :
    ¬ (⟨"/auction/7".toList, some "bogus"⟩ : HttpRequest).HasSession [] ∧
    handleAuctionWS [] ⟨"/auction/7".toList, some "bogus"⟩ = Outcome.upgradeAttempted ∧
    handleAuctionWebsocket [] ⟨"/auction/7".toList, some "bogus"⟩ = Outcome.status 401 ∧
    authMiddleware [] ⟨"/auction/7".toList, some "bogus"⟩ = Except.error 401 := by
  refine ⟨?_, rfl, by decide, rfl⟩
  rintro ⟨value, s, _, hl⟩
  simp at hl

/-! ### C7 -/

theorem consumerLoop_append (a b : List (Except ReadError Bytes)) :
    consumerLoop (a ++ b) = consumerLoop a ++ consumerLoop b := by
  induction a with
  | nil => rfl
  | cons r rest ih => simp [consumerLoop, ih]

/-- C7. Timeout transparency of the consumer loop: an iteration whose poll returns the
error `kafka.ErrTimedOut` does nothing (no broadcast request, no log line), and the loop
goes on with the next poll: the polls before and after it are processed as if it had not
happened. -/
theorem timeout_transparent (pre post : List (Except ReadError Bytes)) :
    consumerIteration (Except.error (ReadError.kafkaError ErrTimedOut)) = [] ∧
    consumerLoop (pre ++ Except.error (ReadError.kafkaError ErrTimedOut) :: post)
      = consumerLoop pre ++ consumerLoop post ∧
    hubRequests (consumerLoop
        (pre ++ Except.error (ReadError.kafkaError ErrTimedOut) :: post))
      = hubRequests (consumerLoop (pre ++ post)) := by
  have h0 : consumerIteration (Except.error (ReadError.kafkaError ErrTimedOut)) = [] := by
    simp [consumerIteration]
  have h1 : consumerLoop (pre ++ Except.error (ReadError.kafkaError ErrTimedOut) :: post)
      = consumerLoop pre ++ consumerLoop post := by
    rw [consumerLoop_append]
    simp [consumerLoop, h0]
  exact ⟨h0, h1, by rw [h1, consumerLoop_append]⟩

/-! ### C8 -/

/-- C8. Non-timeout upstream failures in the consumer loop.  The errors that
`consumer.ReadMessage` returns are `kafka.Error` values; for every such error whose code
is not `kafka.ErrTimedOut` the iteration logs the error, once, forwards no payload to
the hub, and the loop goes on with the next poll; and for every successful read the
value of the message is sent to the hub as a broadcast request unchanged, exactly once,
and the loop goes on as well. -/
theorem upstream_results_handled (code : ErrorCode) (hcode : code ≠ ErrTimedOut)
    (value : Bytes) (pre post : List (Except ReadError Bytes)) :
    consumerIteration (Except.error (ReadError.kafkaError code))
      = [IngressEffect.logKafkaError (ReadError.kafkaError code)] ∧
    loggedErrors (consumerIteration (Except.error (ReadError.kafkaError code)))
      = [ReadError.kafkaError code] ∧
    forwarded (consumerIteration (Except.error (ReadError.kafkaError code))) = [] ∧
    hubRequests (consumerIteration (Except.error (ReadError.kafkaError code))) = [] ∧
    consumerLoop (pre ++ Except.error (ReadError.kafkaError code) :: post)
      = consumerLoop pre ++ [IngressEffect.logKafkaError (ReadError.kafkaError code)]
          ++ consumerLoop post ∧
    consumerIteration (Except.ok value)
      = [IngressEffect.logReceived value, IngressEffect.sendBroadcast value] ∧
    forwarded (consumerIteration (Except.ok value)) = [value] ∧
    hubRequests (consumerIteration (Except.ok value)) = [Request.broadcast value] ∧
    loggedErrors (consumerIteration (Except.ok value)) = [] ∧
    consumerLoop (pre ++ Except.ok value :: post)
      = consumerLoop pre
          ++ [IngressEffect.logReceived value, IngressEffect.sendBroadcast value]
          ++ consumerLoop post := by
  have herr : consumerIteration (Except.error (ReadError.kafkaError code))
      = [IngressEffect.logKafkaError (ReadError.kafkaError code)] := by
    simp [consumerIteration, hcode]
  refine ⟨herr, ?_, ?_, ?_, ?_, rfl, rfl, rfl, rfl, ?_⟩
  · rw [herr]
    rfl
  · rw [herr]
    rfl
  · rw [herr]
    rfl
  · rw [consumerLoop_append]
    simp [consumerLoop, herr]
  · rw [consumerLoop_append]
    simp [consumerLoop, consumerIteration]

/-- Witness of C8: a broker transport failure (code -195) is logged and not forwarded,
and the loop goes on to forward the next message. -/
theorem upstream_results_handled_witness :
    (-195 : ErrorCode) ≠ ErrTimedOut ∧
    consumerLoop [Except.error (ReadError.kafkaError (-195)), Except.ok [1, 2]]
      = [IngressEffect.logKafkaError (ReadError.kafkaError (-195)),
         IngressEffect.logReceived [1, 2], IngressEffect.sendBroadcast [1, 2]] ∧
    consumerLoop ([] ++ Except.error (ReadError.kafkaError (-195)) :: [Except.ok [1, 2]])
      = consumerLoop [] ++ [IngressEffect.logKafkaError (ReadError.kafkaError (-195))]
          ++ consumerLoop [Except.ok [1, 2]] :=
  ⟨by decide, by decide,
    (upstream_results_handled (-195) (by decide) [1, 2] [] [Except.ok [1, 2]]).2.2.2.2.1⟩

/-! ### C9 -/

/-- C10. Per-connection delivery order in `Hub.Run`: in a sequence of requests processed
from any hub, for a connection `c` registered at some step, not unregistered afterwards
and whose writes all succeed, the payloads written to `c` after its registration are the
payloads of the broadcast requests processed after the registration, in the same order,
each once and unchanged, and all of them are delivered; when `c` was not registered
before that step these are all the payloads ever written to `c`. -/
theorem delivery_order (h : Hub) (pre post : List (Request × World)) (w0 : World)
    (c : Conn)
    (hok : h.RangesOk (pre ++ (Request.register c, w0) :: post))
    (hkeep : ∀ t ∈ post, t.1 ≠ Request.unregister c)
    (hsucc : ∀ t ∈ post, t.1.isBroadcast = true → t.2.fails c = false) :
    writesTo c (Hub.run (Hub.run h (pre ++ [(Request.register c, w0)])).1 post).2
      = broadcastPayloads post ∧
    deliveredTo c (Hub.run (Hub.run h (pre ++ [(Request.register c, w0)])).1 post).2
      = broadcastPayloads post ∧
    (c ∉ h.clients → c ∉ registrations pre →
      writesTo c (Hub.run h (pre ++ (Request.register c, w0) :: post)).2
        = broadcastPayloads post) := by
  have hsplit : pre ++ (Request.register c, w0) :: post
      = (pre ++ [(Request.register c, w0)]) ++ post := by simp
  have hok2 := hok
  rw [hsplit, rangesOk_append] at hok2
  have hreg : c ∈ (Hub.run h (pre ++ [(Request.register c, w0)])).1.clients := by
    rw [run_append]
    simp [Hub.run, Hub.step]
  obtain ⟨h1, h2, _⟩ := writes_of_registered _ post c hreg hok2.2 hkeep hsucc
  refine ⟨h1, h2, ?_⟩
  intro hc hpre
  have hokpre : h.RangesOk pre := ((rangesOk_append h pre _).1 hok).1
  have hw := writesTo_run_of_not_mem h pre c hc hpre hokpre
  rw [hsplit, run_append, writesTo_append, h1]
  rw [run_append, writesTo_append, hw]
  simp [Hub.run, Hub.step, writesTo]

/-- Witness of C10: connection 2 of the scenario, registered after the first broadcast,
is written the second and the third broadcast. -/
theorem delivery_order_witness :
    NewHub.RangesOk ([(Request.register 1, World.allOk []),
        (Request.broadcast [5], World.allOk [1])] ++
      (Request.register 2, World.allOk []) ::
        [(Request.broadcast [6], World.allOk [2, 1]),
         (Request.broadcast [7], World.failing 1 [1, 2]),
         (Request.unregister 1, World.allOk [])]) ∧
    writesTo 2 (Hub.run NewHub ([(Request.register 1, World.allOk []),
        (Request.broadcast [5], World.allOk [1])] ++
      (Request.register 2, World.allOk []) ::
        [(Request.broadcast [6], World.allOk [2, 1]),
         (Request.broadcast [7], World.failing 1 [1, 2]),
         (Request.unregister 1, World.allOk [])])).2 = [[6], [7]] :=
  ⟨by decide,
    (delivery_order NewHub [(Request.register 1, World.allOk []),
        (Request.broadcast [5], World.allOk [1])]
      [(Request.broadcast [6], World.allOk [2, 1]),
       (Request.broadcast [7], World.failing 1 [1, 2]),
       (Request.unregister 1, World.allOk [])] (World.allOk []) 2
      (by decide) (by decide) (by decide)).2.2 (by decide) (by decide)⟩

/-! ### C11 -/

/-- C11. Registration in `Hub.Run`: processing `register c` yields the registry with `c`
inserted, which contains `c` and agrees with the old registry on every other
connection; the step writes to nothing and closes nothing, its only effect is the log
line, whose total is the size of the resulting registry; registering a connection that
is already present leaves the registry unchanged, registering twice is the same as
once, and `c` is a key of the resulting map exactly once (every `range` over it yields
`c` once). -/
theorem register_adds (h : Hub) (w w' : World) (c : Conn) :
    (h.step w (Request.register c)).1.clients = insert c h.clients ∧
    c ∈ (h.step w (Request.register c)).1.clients ∧
    (∀ d, d ≠ c → (d ∈ (h.step w (Request.register c)).1.clients ↔ d ∈ h.clients)) ∧
    (h.step w (Request.register c)).2
      = [Effect.logConnected (h.step w (Request.register c)).1.clients.card] ∧
    (∀ d, writesTo d (h.step w (Request.register c)).2 = [] ∧
      closeCount d (h.step w (Request.register c)).2 = 0) ∧
    (c ∉ h.clients →
      (h.step w (Request.register c)).1.clients.card = h.clients.card + 1) ∧
    (c ∈ h.clients → (h.step w (Request.register c)).1 = h) ∧
    ((h.step w (Request.register c)).1.step w' (Request.register c)).1
      = (h.step w (Request.register c)).1 ∧
    (∀ v : World, v.RangeOf (h.step w (Request.register c)).1 → v.order.count c = 1) := by
  have hreg : (h.step w (Request.register c)).1.clients = insert c h.clients := rfl
  have hmem : c ∈ (h.step w (Request.register c)).1.clients := by
    rw [hreg]
    exact Finset.mem_insert_self c _
  refine ⟨hreg, hmem, ?_, rfl, ?_, ?_, ?_, ?_, ?_⟩
  · intro d hd
    rw [hreg, Finset.mem_insert]
    exact ⟨fun hh => hh.resolve_left hd, Or.inr⟩
  · intro d
    exact ⟨rfl, rfl⟩
  · intro hc
    rw [hreg, Finset.card_insert_of_not_mem hc]
  · intro hc
    cases h with
    | mk clients =>
      show (⟨insert c clients⟩ : Hub) = ⟨clients⟩
      rw [Finset.insert_eq_of_mem hc]
  · generalize h.step w (Request.register c) = r at hmem
    cases hr : r.1 with
    | mk clients =>
      rw [hr] at hmem
      show (⟨insert c clients⟩ : Hub) = ⟨clients⟩
      rw [Finset.insert_eq_of_mem hmem]
  · intro v hv
    rw [count_of_range hv.1 hv.2 c, if_pos hmem]

/-- Witness of C11: connection 2 registers in a hub that holds connection 1, and
registers again. -/
theorem register_adds_witness :
    (World.allOk [2, 1]).RangeOf ((⟨{1}⟩ : Hub).step (World.allOk [])
      (Request.register 2)).1 ∧
    (World.allOk [2, 1]).order.count 2 = 1 ∧
    ((⟨{1}⟩ : Hub).step (World.allOk []) (Request.register 2)).2
      = [Effect.logConnected 2] ∧
    ((⟨{1, 2}⟩ : Hub).step (World.allOk []) (Request.register 2))
      = (⟨{1, 2}⟩, [Effect.logConnected 2]) :=
  ⟨by decide,
    (register_adds ⟨{1}⟩ (World.allOk []) (World.allOk []) 2).2.2.2.2.2.2.2.2
      (World.allOk [2, 1]) (by decide),
    by decide, by decide⟩

/-! ### C12 -/

theorem mutex_writeAttempts_range (msg : Bytes) (fails : Conn → Bool) (l : List Conn)
    (cl : Finset Conn) :
    writeAttempts (Mutex.rangeClients msg fails l cl).2
      = l.map (fun c => (c, msg, !fails c)) := by
  induction l generalizing cl with
  | nil => rfl
  | cons c rest ih =>
    by_cases hc : fails c = true
    · simp [Mutex.rangeClients, hc, writeAttempts, ih]
    · simp [Mutex.rangeClients, hc, writeAttempts, ih]

theorem mutex_deliveries_range (msg : Bytes) (fails : Conn → Bool) (l : List Conn)
    (cl : Finset Conn) :
    deliveries (Mutex.rangeClients msg fails l cl).2
      = (l.filter (fun c => !fails c)).map (fun c => (c, msg)) := by
  induction l generalizing cl with
  | nil => rfl
  | cons c rest ih =>
    by_cases hc : fails c = true
    · simp [Mutex.rangeClients, hc, deliveries, ih]
    · simp [Mutex.rangeClients, hc, deliveries, ih]

theorem mutex_mem_range (msg : Bytes) (fails : Conn → Bool) (l : List Conn)
    (cl : Finset Conn) (x : Conn) :
    x ∈ (Mutex.rangeClients msg fails l cl).1 ↔ x ∈ cl ∧ ¬ (x ∈ l ∧ fails x = true) := by
  induction l generalizing cl with
  | nil => simp [Mutex.rangeClients]
  | cons c rest ih =>
    by_cases hc : fails c = true
    · simp only [Mutex.rangeClients, hc, if_true, ih, Finset.mem_erase, List.mem_cons]
      constructor
      · rintro ⟨⟨hne, hx⟩, hn⟩
        refine ⟨hx, ?_⟩
        rintro ⟨h1 | h1, h2⟩
        · exact hne h1
        · exact hn ⟨h1, h2⟩
      · rintro ⟨hx, hn⟩
        refine ⟨⟨?_, hx⟩, fun h => hn ⟨Or.inr h.1, h.2⟩⟩
        intro h1
        exact hn ⟨Or.inl h1, h1 ▸ hc⟩
    · have hc' : fails c = false := by simpa using hc
      simp only [Mutex.rangeClients, hc', Bool.false_eq_true, if_false, ih, List.mem_cons]
      constructor
      · rintro ⟨hx, hn⟩
        refine ⟨hx, ?_⟩
        rintro ⟨h1 | h1, h2⟩
        · exact hc (h1 ▸ h2)
        · exact hn ⟨h1, h2⟩
      · rintro ⟨hx, hn⟩
        exact ⟨hx, fun h => hn ⟨Or.inr h.1, h.2⟩⟩

/-- C12. The two hubs agree on fan-out: on the same registry, with the same connections
failing on write and the formatted price of the mutex variant equal to the payload, one
call of `broadcastPrice` and one broadcast request processed by `Hub.Run`, each ranging
over the registry in its own order, leave the same registry, attempt a write of the same
payload on the same set of connections, deliver it to the same set, and close the same
set of connections, each of them the same number of times. -/
theorem hubs_agree_on_fanout (s : Mutex.State) (h : Hub) (fails : Conn → Bool)
    (o1 o2 : List Conn) (msg : Bytes)
    (hreg : s.clients = h.clients)
    (hmsg : bytesOfText (priceMessage s.currentPrice) = msg)
    (h1 : (⟨fails, o1⟩ : World).RangeOf ⟨s.clients⟩)
    (h2 : (⟨fails, o2⟩ : World).RangeOf h) :
    (Mutex.broadcastPrice s ⟨fails, o1⟩).1.clients
      = (h.step ⟨fails, o2⟩ (Request.broadcast msg)).1.clients ∧
    writtenSet (Mutex.broadcastPrice s ⟨fails, o1⟩).2
      = writtenSet (h.step ⟨fails, o2⟩ (Request.broadcast msg)).2 ∧
    deliveredSet (Mutex.broadcastPrice s ⟨fails, o1⟩).2
      = deliveredSet (h.step ⟨fails, o2⟩ (Request.broadcast msg)).2 ∧
    closedSet (Mutex.broadcastPrice s ⟨fails, o1⟩).2
      = closedSet (h.step ⟨fails, o2⟩ (Request.broadcast msg)).2 ∧
    (∀ c, closeCount c (Mutex.broadcastPrice s ⟨fails, o1⟩).2
      = closeCount c (h.step ⟨fails, o2⟩ (Request.broadcast msg)).2) := by
  obtain ⟨hn1, hs1⟩ := h1
  obtain ⟨hn2, hs2⟩ := h2
  simp only at hn1 hs1 hn2 hs2
  have hmem : ∀ x, x ∈ o1 ↔ x ∈ o2 := by
    intro x
    rw [← List.mem_toFinset, ← List.mem_toFinset (l := o2), hs1, hs2, hreg]
  refine ⟨?_, ?_, ?_, ?_, ?_⟩
  · ext x
    simp only [Mutex.broadcastPrice, Hub.step, mutex_mem_range, mem_rangeClients, hreg,
      hmem]
  · ext x
    simp only [writtenSet, Mutex.broadcastPrice, Hub.step, mutex_writeAttempts_range,
      writeAttempts_rangeClients, hmsg, List.mem_toFinset, List.mem_map, List.map_map]
    constructor
    · rintro ⟨a, ha, rfl⟩
      exact ⟨a, (hmem a).1 ha, rfl⟩
    · rintro ⟨a, ha, rfl⟩
      exact ⟨a, (hmem a).2 ha, rfl⟩
  · ext x
    simp only [deliveredSet, Mutex.broadcastPrice, Hub.step, mutex_deliveries_range,
      deliveries_rangeClients, hmsg, List.mem_toFinset, List.mem_map, List.mem_filter]
    constructor
    · rintro ⟨a, ⟨ha, hf⟩, rfl⟩
      exact ⟨a, ⟨(hmem a).1 ha, hf⟩, rfl⟩
    · rintro ⟨a, ⟨ha, hf⟩, rfl⟩
      exact ⟨a, ⟨(hmem a).2 ha, hf⟩, rfl⟩
  · ext x
    simp only [closedSet, Mutex.broadcastPrice, Hub.step, mutex_closedConns_range,
      closedConns_rangeClients, List.mem_toFinset, List.mem_filter, hmem]
  · intro c
    simp only [closeCount, Mutex.broadcastPrice, Hub.step, mutex_closedConns_range,
      closedConns_rangeClients]
    by_cases hc : c ∈ o1 ∧ fails c = true
    · rw [List.count_eq_one_of_mem (hn1.filter _) (List.mem_filter.2 hc),
        List.count_eq_one_of_mem (hn2.filter _)
          (List.mem_filter.2 ⟨(hmem c).1 hc.1, hc.2⟩)]
    · rw [List.count_eq_zero_of_not_mem (fun hh => hc (List.mem_filter.1 hh)),
        List.count_eq_zero_of_not_mem
          (fun hh => hc ⟨(hmem c).2 (List.mem_filter.1 hh).1, (List.mem_filter.1 hh).2⟩)]

/-- Witness of C12: three connections, the write on connection 2 fails, the price 450
against the payload of the scenario, the two hubs ranging in different orders. -/
theorem hubs_agree_on_fanout_witness :
    (Mutex.broadcastPrice ⟨{1, 2, 3}, float64OfNat 450⟩ ⟨fun c => c == 2, [1, 2, 3]⟩).1.clients
      = {1, 3} ∧
    ((⟨{1, 2, 3}⟩ : Hub).step ⟨fun c => c == 2, [3, 2, 1]⟩
      (Request.broadcast scenarioPayload)).1.clients = {1, 3} ∧
    closedSet (Mutex.broadcastPrice ⟨{1, 2, 3}, float64OfNat 450⟩
      ⟨fun c => c == 2, [1, 2, 3]⟩).2 = {2} ∧
    writtenSet (Mutex.broadcastPrice ⟨{1, 2, 3}, float64OfNat 450⟩
        ⟨fun c => c == 2, [1, 2, 3]⟩).2
      = writtenSet ((⟨{1, 2, 3}⟩ : Hub).step ⟨fun c => c == 2, [3, 2, 1]⟩
        (Request.broadcast scenarioPayload)).2 :=
  ⟨by decide, by decide, by decide,
    (hubs_agree_on_fanout ⟨{1, 2, 3}, float64OfNat 450⟩ ⟨{1, 2, 3}⟩ (fun c => c == 2)
      [1, 2, 3] [3, 2, 1] scenarioPayload rfl (by decide) (by decide) (by decide)).2.1⟩

end Auction
